import Mathlib

/-!
Verification of the vector similarity engine in `src/vector_ops.rs`.

The engine's numeric computations run on `f32` values obtained from the
caller's `f64` input.  This development models both precisions by the real
numbers, i.e. it reasons about the algorithms in exact arithmetic: the
lossy `f64 -> f32` conversion becomes the identity and every arithmetic
operation is exact.  Machine-integer indices (`u32`, `usize`) are modelled
by `Nat`; the collection sizes at which a `u32` cast could wrap are far
beyond anything addressable, so the cast is modelled as the identity.

Fallible operations return an `Outcome`: `ok` and `err` mirror
`napi::Result`, and `panic` marks the executions in which the Rust code
performs an unchecked division or remainder by zero and aborts.
-/

/-- Error taxonomy of the engine, one constructor per distinct
input-validation failure surfaced by `vector_ops.rs`. -/
inductive VecError where
  | dimensionMismatch
  | malformedCollection
  | labelCountMismatch
  | zeroVector
deriving DecidableEq, Repr

/-- Result of a fallible engine operation: a value, a structured error, or a
Rust panic (integer division/remainder by zero). -/
inductive Outcome (α : Type) where
  | ok : α → Outcome α
  | err : VecError → Outcome α
  | panic : Outcome α
deriving DecidableEq, Repr

/-- Configuration of `VectorOperations` (struct `VectorConfig`). -/
structure VectorConfig where
  use_simd : Bool
  use_parallel : Bool
  similarity_threshold : ℝ

/-- The `Default` impl of `VectorConfig`. -/
noncomputable def defaultConfig : VectorConfig :=
  { use_simd := true, use_parallel := true, similarity_threshold := 0.7 }

/-- A configuration that forces the scalar sequential strategy. -/
noncomputable def scalarConfig : VectorConfig :=
  { use_simd := false, use_parallel := false, similarity_threshold := 0.7 }

/-- One entry returned by `find_similar_vectors` (struct `SimilarityResult`). -/
structure SimilarityResult where
  index : ℕ
  path : String
  similarity : ℝ

/-- Sum of squares of the components, `v.iter().map(|x| x * x).sum()`. -/
def sumSq (v : List ℝ) : ℝ := (v.map fun x => x * x).sum

/-- Dot product as computed by the scalar kernel,
`vec_a.iter().zip(vec_b.iter()).map(|(a, b)| a * b).sum()`. -/
def sumProd (vec_a vec_b : List ℝ) : ℝ :=
  ((vec_a.zip vec_b).map fun p => p.1 * p.2).sum

/-- The L2 norm `sqrt(sum of squares)`. -/
noncomputable def l2norm (v : List ℝ) : ℝ := Real.sqrt (sumSq v)

/-- The scalar cosine similarity kernel `cosine_similarity_scalar`. -/
noncomputable def cosine_similarity_scalar (vec_a vec_b : List ℝ) : ℝ :=
  let dot_product := sumProd vec_a vec_b
  let norm_a := Real.sqrt (sumSq vec_a)
  let norm_b := Real.sqrt (sumSq vec_b)
  if norm_a = 0 ∨ norm_b = 0 then 0 else dot_product / (norm_a * norm_b)

/-- The fused-multiply-add loop of the vectorized kernel: after `c`
iterations, lane `l` of an AVX accumulator register holds the sum of
`f (i * 8 + l)` over the chunks `i < c` processed so far. -/
def simdAccum (f : ℕ → ℝ) : ℕ → Fin 8 → ℝ
  | 0, _ => 0
  | c + 1, l => simdAccum f c l + f (c * 8 + l.val)

/-- Horizontal reduction of an 8-lane register (`sum_avx_register`). -/
noncomputable def sumAvxRegister (reg : Fin 8 → ℝ) : ℝ := ∑ l : Fin 8, reg l

/-- The vectorized cosine similarity kernel `cosine_similarity_simd`:
8-wide lanes over `len / 8` chunks, horizontal reduction, then a scalar
remainder pass over the tail indices `chunks * 8 .. len`.  Reads of
`vec_a[i]`/`vec_b[i]` are modelled by `List.getD _ _ 0`; for the
equal-length inputs the kernel is called on, every access is in bounds,
so the default is never consulted. -/
noncomputable def cosine_similarity_simd (vec_a vec_b : List ℝ) : ℝ :=
  let len := vec_a.length
  let chunks := len / 8
  let dot_product := simdAccum (fun i => vec_a.getD i 0 * vec_b.getD i 0) chunks
  let norm_a := simdAccum (fun i => vec_a.getD i 0 * vec_a.getD i 0) chunks
  let norm_b := simdAccum (fun i => vec_b.getD i 0 * vec_b.getD i 0) chunks
  let dot := sumAvxRegister dot_product
  let norm_a_sum := Real.sqrt (sumAvxRegister norm_a)
  let norm_b_sum := Real.sqrt (sumAvxRegister norm_b)
  let remaining_dot := ∑ i ∈ Finset.Ico (chunks * 8) len, vec_a.getD i 0 * vec_b.getD i 0
  let remaining_norm_a := ∑ i ∈ Finset.Ico (chunks * 8) len, vec_a.getD i 0 * vec_a.getD i 0
  let remaining_norm_b := ∑ i ∈ Finset.Ico (chunks * 8) len, vec_b.getD i 0 * vec_b.getD i 0
  let total_dot := dot + remaining_dot
  let total_norm_a := Real.sqrt (norm_a_sum * norm_a_sum + remaining_norm_a)
  let total_norm_b := Real.sqrt (norm_b_sum * norm_b_sum + remaining_norm_b)
  if total_norm_a = 0 ∨ total_norm_b = 0 then 0
  else total_dot / (total_norm_a * total_norm_b)

lemma simdAccum_lane (f : ℕ → ℝ) (c : ℕ) (l : Fin 8) :
    simdAccum f c l = ∑ i ∈ Finset.range c, f (i * 8 + l.val) := by
  induction c with
  | zero => simp [simdAccum]
  | succ c ih => simp [simdAccum, ih, Finset.sum_range_succ]

lemma sumAvxRegister_simdAccum (f : ℕ → ℝ) (c : ℕ) :
    sumAvxRegister (simdAccum f c) = ∑ i ∈ Finset.range (c * 8), f i := by
  induction c with
  | zero => simp [sumAvxRegister, simdAccum]
  | succ c ih =>
      have step : ∀ l : Fin 8, simdAccum f (c + 1) l = simdAccum f c l + f (c * 8 + l.val) := by
        intro l; rfl
      have h8 : ∑ l : Fin 8, f (c * 8 + l.val) = ∑ j ∈ Finset.range 8, f (c * 8 + j) :=
        Fin.sum_univ_eq_sum_range (fun j => f (c * 8 + j)) 8
      have hsplit : ∑ i ∈ Finset.range ((c + 1) * 8), f i
          = ∑ i ∈ Finset.range (c * 8), f i + ∑ j ∈ Finset.range 8, f (c * 8 + j) := by
        have h1 : ∑ i ∈ Finset.Ico 0 (c * 8), f i + ∑ i ∈ Finset.Ico (c * 8) ((c + 1) * 8), f i
            = ∑ i ∈ Finset.Ico 0 ((c + 1) * 8), f i :=
          Finset.sum_Ico_consecutive f (Nat.zero_le _) (by omega)
        have h2 : ∑ i ∈ Finset.Ico (c * 8) ((c + 1) * 8), f i
            = ∑ j ∈ Finset.range ((c + 1) * 8 - c * 8), f (c * 8 + j) :=
          Finset.sum_Ico_eq_sum_range f (c * 8) ((c + 1) * 8)
        have h3 : (c + 1) * 8 - c * 8 = 8 := by omega
        rw [← Finset.range_eq_Ico] at h1
        rw [h3] at h2
        rw [← h1, h2]
      calc sumAvxRegister (simdAccum f (c + 1))
          = ∑ l : Fin 8, (simdAccum f c l + f (c * 8 + l.val)) := by
            unfold sumAvxRegister; exact Finset.sum_congr rfl (fun l _ => step l)
        _ = sumAvxRegister (simdAccum f c) + ∑ l : Fin 8, f (c * 8 + l.val) := by
            rw [Finset.sum_add_distrib]; rfl
        _ = ∑ i ∈ Finset.range (c * 8), f i + ∑ j ∈ Finset.range 8, f (c * 8 + j) := by
            rw [ih, h8]
        _ = ∑ i ∈ Finset.range ((c + 1) * 8), f i := hsplit.symm

lemma list_map_sum_eq_range (v : List ℝ) (g : ℝ → ℝ) :
    (v.map g).sum = ∑ i ∈ Finset.range v.length, g (v.getD i 0) := by
  induction v with
  | nil => simp
  | cons x t ih =>
      have h : ∑ i ∈ Finset.range (t.length + 1), g ((x :: t).getD i 0)
          = (∑ i ∈ Finset.range t.length, g ((x :: t).getD (i + 1) 0)) + g ((x :: t).getD 0 0) :=
        Finset.sum_range_succ' (fun i => g ((x :: t).getD i 0)) t.length
      simp only [List.map_cons, List.sum_cons, List.length_cons, h]
      have h2 : ∀ i, (x :: t).getD (i + 1) 0 = t.getD i 0 := by intro i; rfl
      simp only [h2, List.getD]
      rw [ih]
      exact (add_comm _ _)

lemma sumSq_eq_range (v : List ℝ) :
    sumSq v = ∑ i ∈ Finset.range v.length, v.getD i 0 * v.getD i 0 :=
  list_map_sum_eq_range v (fun x => x * x)

lemma sumProd_eq_range (a b : List ℝ) (h : a.length = b.length) :
    sumProd a b = ∑ i ∈ Finset.range a.length, a.getD i 0 * b.getD i 0 := by
  induction a generalizing b with
  | nil => simp [sumProd]
  | cons x t ih =>
      cases b with
      | nil => simp at h
      | cons y s =>
          have hts : t.length = s.length := by simpa using h
          have hr : ∑ i ∈ Finset.range (t.length + 1), (x :: t).getD i 0 * (y :: s).getD i 0
              = (∑ i ∈ Finset.range t.length, (x :: t).getD (i + 1) 0 * (y :: s).getD (i + 1) 0)
                + (x :: t).getD 0 0 * (y :: s).getD 0 0 :=
            Finset.sum_range_succ' (fun i => (x :: t).getD i 0 * (y :: s).getD i 0) t.length
          simp only [List.length_cons, hr]
          have h2 : ∀ i, (x :: t).getD (i + 1) 0 = t.getD i 0 := by intro i; rfl
          have h3 : ∀ i, (y :: s).getD (i + 1) 0 = s.getD i 0 := by intro i; rfl
          simp only [h2, h3, List.getD]
          have : sumProd (x :: t) (y :: s) = x * y + sumProd t s := by
            simp [sumProd]
          rw [this, ih s hts]
          simp [List.getD]
          ring

lemma lane_plus_tail (f : ℕ → ℝ) (len : ℕ) :
    sumAvxRegister (simdAccum f (len / 8)) + ∑ i ∈ Finset.Ico (len / 8 * 8) len, f i
      = ∑ i ∈ Finset.range len, f i := by
  rw [sumAvxRegister_simdAccum]
  rw [show Finset.range (len / 8 * 8) = Finset.Ico 0 (len / 8 * 8) by rw [Finset.range_eq_Ico],
    show Finset.range len = Finset.Ico 0 len by rw [Finset.range_eq_Ico]]
  exact Finset.sum_Ico_consecutive f (Nat.zero_le _) (Nat.div_mul_le_self len 8)

lemma simdAccum_sq_nonneg (v : List ℝ) (c : ℕ) :
    0 ≤ sumAvxRegister (simdAccum (fun i => v.getD i 0 * v.getD i 0) c) := by
  rw [sumAvxRegister_simdAccum]
  exact Finset.sum_nonneg fun i _ => mul_self_nonneg _

/-- The vectorized kernel computes exactly the scalar kernel's value: the
lane accumulators plus the remainder pass re-associate the same sums, and
squaring the partial square root recovers the lane total. -/
theorem simd_eq_scalar (a b : List ℝ) (h : a.length = b.length) :
    cosine_similarity_simd a b = cosine_similarity_scalar a b := by
  have hA : Real.sqrt (sumAvxRegister (simdAccum (fun i => a.getD i 0 * a.getD i 0) (a.length / 8)))
        * Real.sqrt (sumAvxRegister (simdAccum (fun i => a.getD i 0 * a.getD i 0) (a.length / 8)))
        + ∑ i ∈ Finset.Ico (a.length / 8 * 8) a.length, a.getD i 0 * a.getD i 0
      = sumSq a := by
    rw [Real.mul_self_sqrt (simdAccum_sq_nonneg a _), lane_plus_tail, sumSq_eq_range]
  have hB : Real.sqrt (sumAvxRegister (simdAccum (fun i => b.getD i 0 * b.getD i 0) (a.length / 8)))
        * Real.sqrt (sumAvxRegister (simdAccum (fun i => b.getD i 0 * b.getD i 0) (a.length / 8)))
        + ∑ i ∈ Finset.Ico (a.length / 8 * 8) a.length, b.getD i 0 * b.getD i 0
      = sumSq b := by
    rw [Real.mul_self_sqrt (simdAccum_sq_nonneg b _), h, lane_plus_tail, sumSq_eq_range]
  have hD : sumAvxRegister (simdAccum (fun i => a.getD i 0 * b.getD i 0) (a.length / 8))
        + ∑ i ∈ Finset.Ico (a.length / 8 * 8) a.length, a.getD i 0 * b.getD i 0
      = sumProd a b := by
    rw [lane_plus_tail, sumProd_eq_range a b h]
  simp only [cosine_similarity_simd, cosine_similarity_scalar]
  rw [hA, hB, hD]

/-- Dispatch between the kernels: `cosine_similarity_internal` uses the
vectorized kernel when the configuration allows SIMD and the running
hardware supports AVX2 (`hw_avx2` models `is_x86_feature_detected!`). -/
noncomputable def cosine_similarity_internal (cfg : VectorConfig) (hw_avx2 : Bool)
    (vec_a vec_b : List ℝ) : ℝ :=
  if cfg.use_simd && hw_avx2 then cosine_similarity_simd vec_a vec_b
  else cosine_similarity_scalar vec_a vec_b

lemma internal_eq_scalar (cfg : VectorConfig) (hw : Bool) (a b : List ℝ)
    (h : a.length = b.length) :
    cosine_similarity_internal cfg hw a b = cosine_similarity_scalar a b := by
  unfold cosine_similarity_internal
  split
  · exact simd_eq_scalar a b h
  · rfl

/-- The public `cosine_similarity` method: length check, empty-input
convention, `f64 -> f32` conversion (identity in this model), kernel call. -/
noncomputable def cosine_similarity (cfg : VectorConfig) (hw_avx2 : Bool)
    (vec_a vec_b : List ℝ) : Outcome ℝ :=
  if vec_a.length ≠ vec_b.length then .err .dimensionMismatch
  else if vec_a.isEmpty then .ok 0
  else .ok (cosine_similarity_internal cfg hw_avx2 vec_a vec_b)

/-- C1: for every pair of equal-length input vectors (any length, divisible
by the 8-wide lane width or not), the vectorized kernel's cosine similarity
(SIMD lanes plus scalar remainder pass) and the scalar kernel's cosine
similarity differ by less than 1e-4 in absolute value.  In exact arithmetic
the two kernels agree exactly, so the difference is 0. -/
theorem claim1_simd_scalar_equiv (a b : List ℝ) (h : a.length = b.length) :
    |cosine_similarity_simd a b - cosine_similarity_scalar a b| < 1e-4 := by
  rw [simd_eq_scalar a b h, sub_self, abs_zero]
  norm_num

/-- Witness for C1 at the length-3 vectors `[1,2,3]` and `[4,5,6]` (length
not divisible by the lane width 8). -/
theorem claim1_witness :
    |cosine_similarity_simd [1, 2, 3] [4, 5, 6]
      - cosine_similarity_scalar [1, 2, 3] [4, 5, 6]| < 1e-4 :=
  claim1_simd_scalar_equiv [1, 2, 3] [4, 5, 6] rfl

lemma l2norm_nil : l2norm [] = 0 := by
  simp [l2norm, sumSq]

lemma scalar_of_norms (a b : List ℝ) (ha : l2norm a ≠ 0) (hb : l2norm b ≠ 0) :
    cosine_similarity_scalar a b = sumProd a b / (l2norm a * l2norm b) := by
  simp only [cosine_similarity_scalar, l2norm] at *
  rw [if_neg]
  push_neg
  exact ⟨ha, hb⟩

lemma scalar_of_zero_norm (a b : List ℝ) (h : l2norm a = 0 ∨ l2norm b = 0) :
    cosine_similarity_scalar a b = 0 := by
  simp only [cosine_similarity_scalar, l2norm] at *
  rw [if_pos h]

/-- C2: `cosine_similarity` fails with `DimensionMismatch` exactly when the
lengths differ; on two empty vectors it returns `0.0`; when either vector
has zero magnitude it returns `0.0`; otherwise it returns
`dot(a,b) / (l2norm a * l2norm b)`. -/
theorem claim2_cosine_contract (cfg : VectorConfig) (hw : Bool) (a b : List ℝ) :
    (cosine_similarity cfg hw a b = .err .dimensionMismatch ↔ a.length ≠ b.length)
    ∧ (a = [] → b = [] → cosine_similarity cfg hw a b = .ok 0)
    ∧ (a.length = b.length → (l2norm a = 0 ∨ l2norm b = 0) →
        cosine_similarity cfg hw a b = .ok 0)
    ∧ (a.length = b.length → l2norm a ≠ 0 → l2norm b ≠ 0 →
        cosine_similarity cfg hw a b
          = .ok (sumProd a b / (l2norm a * l2norm b))) := by
  refine ⟨?_, ?_, ?_, ?_⟩
  · constructor
    · intro hcontra
      by_cases hlen : a.length = b.length
      · exfalso
        unfold cosine_similarity at hcontra
        rw [if_neg (fun hne => hne hlen)] at hcontra
        by_cases hemp : a.isEmpty <;> simp [hemp] at hcontra
      · exact hlen
    · intro hne
      unfold cosine_similarity
      rw [if_pos hne]
  · rintro rfl rfl
    simp [cosine_similarity]
  · intro hlen hz
    have hsc : cosine_similarity_internal cfg hw a b = 0 := by
      rw [internal_eq_scalar cfg hw a b hlen, scalar_of_zero_norm a b hz]
    unfold cosine_similarity
    rw [if_neg (fun hne => hne hlen), hsc]
    split <;> rfl
  · intro hlen ha hb
    have hane : a ≠ [] := by
      intro hnil; rw [hnil] at ha; exact ha l2norm_nil
    have hemp : ¬ (a.isEmpty = true) := by
      cases a with
      | nil => exact absurd rfl hane
      | cons x t => simp
    unfold cosine_similarity
    rw [if_neg (fun hne => hne hlen), if_neg hemp,
      internal_eq_scalar cfg hw a b hlen, scalar_of_norms a b ha hb]

lemma l2norm_single_three : l2norm [(3 : ℝ)] = 3 := by
  have h : sumSq [(3 : ℝ)] = 9 := by norm_num [sumSq]
  rw [l2norm, h, show (9 : ℝ) = 3 ^ 2 by norm_num, Real.sqrt_sq (by norm_num)]

lemma l2norm_single_four : l2norm [(4 : ℝ)] = 4 := by
  have h : sumSq [(4 : ℝ)] = 16 := by norm_num [sumSq]
  rw [l2norm, h, show (16 : ℝ) = 4 ^ 2 by norm_num, Real.sqrt_sq (by norm_num)]

/-- Witness for C2: the non-degenerate branch evaluated at `[3]` and `[4]`. -/
theorem claim2_witness :
    cosine_similarity defaultConfig true [(3 : ℝ)] [(4 : ℝ)]
      = .ok (sumProd [(3 : ℝ)] [(4 : ℝ)] / (l2norm [(3 : ℝ)] * l2norm [(4 : ℝ)])) :=
  (claim2_cosine_contract defaultConfig true [(3 : ℝ)] [(4 : ℝ)]).2.2.2 rfl
    (by rw [l2norm_single_three]; norm_num)
    (by rw [l2norm_single_four]; norm_num)

/-- The `i`-th `size`-sized slice `vectors_flat[i*size .. (i+1)*size]`. -/
def chunk (flat : List ℝ) (i size : ℕ) : List ℝ := (flat.drop (i * size)).take size

/-- The per-candidate map applied by `batch_cosine_similarity`:
`(0..num_vectors).map(|i| kernel(query, flat[i*size..(i+1)*size]))`.
The rayon parallel branch and the sequential branch compute this same
order-preserving map (`into_par_iter().map(..).collect()` preserves
indices), so both strategies are modelled by the same list. -/
noncomputable def batchScores (cfg : VectorConfig) (hw_avx2 : Bool)
    (query_vector vectors_flat : List ℝ) (vector_size : ℕ) : List ℝ :=
  (List.range (vectors_flat.length / vector_size)).map fun i =>
    cosine_similarity_internal cfg hw_avx2 query_vector (chunk vectors_flat i vector_size)

/-- The public `batch_cosine_similarity` method.  With `vector_size = 0` the
Rust expression `vectors_flat.len() % vector_size` is a remainder by zero
and panics, modelled by `Outcome.panic`. -/
noncomputable def batch_cosine_similarity (cfg : VectorConfig) (hw_avx2 : Bool)
    (query_vector vectors_flat : List ℝ) (vector_size : ℕ) : Outcome (List ℝ) :=
  if vector_size = 0 then .panic
  else if vectors_flat.length % vector_size ≠ 0 then .err .malformedCollection
  else if vectors_flat.length / vector_size = 0 then .ok []
  else if cfg.use_parallel = true ∧ 100 < vectors_flat.length / vector_size then
    .ok (batchScores cfg hw_avx2 query_vector vectors_flat vector_size)
  else
    .ok (batchScores cfg hw_avx2 query_vector vectors_flat vector_size)

lemma batchScores_length (cfg : VectorConfig) (hw : Bool) (q flat : List ℝ) (size : ℕ) :
    (batchScores cfg hw q flat size).length = flat.length / size := by
  simp [batchScores]

lemma batchScores_getD (cfg : VectorConfig) (hw : Bool) (q flat : List ℝ) (size i : ℕ)
    (hi : i < flat.length / size) :
    (batchScores cfg hw q flat size).getD i 0
      = cosine_similarity_internal cfg hw q (chunk flat i size) := by
  unfold batchScores
  rw [List.getD_eq_getElem?_getD, List.getElem?_map, List.getElem?_range hi]
  rfl

lemma batch_ok (cfg : VectorConfig) (hw : Bool) (q flat : List ℝ) (size : ℕ)
    (hs : size ≠ 0) (hm : flat.length % size = 0) :
    batch_cosine_similarity cfg hw q flat size
      = .ok (batchScores cfg hw q flat size) := by
  unfold batch_cosine_similarity
  rw [if_neg hs, if_neg (by simpa using hm)]
  by_cases h0 : flat.length / size = 0
  · rw [if_pos h0]
    unfold batchScores
    rw [h0]
    rfl
  · rw [if_neg h0]
    split <;> rfl

lemma chunk_length (flat : List ℝ) (size i : ℕ) (hm : flat.length % size = 0)
    (hi : i < flat.length / size) :
    (chunk flat i size).length = size := by
  unfold chunk
  rw [List.length_take, List.length_drop]
  have hdvd : size ∣ flat.length := Nat.dvd_of_mod_eq_zero hm
  have hdiv : flat.length / size * size = flat.length := Nat.div_mul_cancel hdvd
  have hle : i * size + size ≤ flat.length := by
    have h1 : (i + 1) * size ≤ flat.length / size * size :=
      Nat.mul_le_mul_right _ (Nat.succ_le_of_lt hi)
    rw [Nat.add_mul, Nat.one_mul] at h1
    omega
  exact min_eq_left (by omega)

lemma scalar_short_query_ten :
    cosine_similarity_scalar [(1 : ℝ)] [(1 : ℝ), 0] = 1 := by
  have ha : sumSq [(1 : ℝ)] = 1 := by norm_num [sumSq]
  have hb : sumSq [(1 : ℝ), 0] = 1 := by norm_num [sumSq]
  have hd : sumProd [(1 : ℝ)] [(1 : ℝ), 0] = 1 := by norm_num [sumProd]
  simp only [cosine_similarity_scalar, ha, hb, hd, Real.sqrt_one]
  norm_num

lemma scalar_short_query_zero_one :
    cosine_similarity_scalar [(1 : ℝ)] [(0 : ℝ), 1] = 0 := by
  have ha : sumSq [(1 : ℝ)] = 1 := by norm_num [sumSq]
  have hb : sumSq [(0 : ℝ), 1] = 1 := by norm_num [sumSq]
  have hd : sumProd [(1 : ℝ)] [(0 : ℝ), 1] = 0 := by norm_num [sumProd]
  simp only [cosine_similarity_scalar, ha, hb, hd, Real.sqrt_one]
  norm_num

/-- Counterexample for C3: (a) at dimension 0 the operation panics (remainder
by zero) instead of failing with `MalformedCollection`; (b) with a query
whose length differs from the dimension, the batch output entry is not the
value of `cosine_similarity(query, chunk)`, which instead fails with
`DimensionMismatch`. -/
theorem claim3_counterexample :
    batch_cosine_similarity scalarConfig true [(1 : ℝ)] [(1 : ℝ)] 0 = .panic
    ∧ batch_cosine_similarity scalarConfig true [(1 : ℝ)] [(1 : ℝ), 0, 0, 1] 2
        = .ok [1, 0]
    ∧ cosine_similarity scalarConfig true [(1 : ℝ)] [(1 : ℝ), 0]
        = .err .dimensionMismatch := by
  refine ⟨rfl, ?_, ?_⟩
  · have hb : batchScores scalarConfig true [(1 : ℝ)] [(1 : ℝ), 0, 0, 1] 2
        = [cosine_similarity_scalar [(1 : ℝ)] [(1 : ℝ), 0],
           cosine_similarity_scalar [(1 : ℝ)] [(0 : ℝ), 1]] := rfl
    rw [batch_ok scalarConfig true _ _ 2 (by omega) (by rfl), hb,
      scalar_short_query_ten, scalar_short_query_zero_one]
  · unfold cosine_similarity
    rw [if_pos (by simp)]

/-- C3, amended: for dimension at least 1, `batch_cosine_similarity` fails
with `MalformedCollection` exactly when the flattened length is not a
multiple of the dimension; otherwise it returns exactly
`len(collection) / dimension` scores (same list for the parallel and the
sequential strategy), and when additionally `len(query) = dimension` the
score at index `i` is the value `cosine_similarity(query, chunk_i)`
returns.  (At dimension 0 the code panics, and nothing constrains a
mismatched query: see the counterexample.) -/
theorem claim3_batch_contract (cfg : VectorConfig) (hw : Bool)
    (query flat : List ℝ) (size : ℕ) (hs : 1 ≤ size) :
    (batch_cosine_similarity cfg hw query flat size = .err .malformedCollection
      ↔ flat.length % size ≠ 0)
    ∧ (flat.length % size = 0 →
        batch_cosine_similarity cfg hw query flat size
            = .ok (batchScores cfg hw query flat size)
        ∧ (batchScores cfg hw query flat size).length = flat.length / size
        ∧ (query.length = size → ∀ i, i < flat.length / size →
            cosine_similarity cfg hw query (chunk flat i size)
              = .ok ((batchScores cfg hw query flat size).getD i 0))) := by
  have hs0 : size ≠ 0 := by omega
  constructor
  · constructor
    · intro h
      intro hm
      rw [batch_ok cfg hw query flat size hs0 hm] at h
      exact absurd h (by simp)
    · intro hm
      unfold batch_cosine_similarity
      rw [if_neg hs0, if_pos hm]
  · intro hm
    refine ⟨batch_ok cfg hw query flat size hs0 hm, batchScores_length cfg hw query flat size, ?_⟩
    intro hq i hi
    have hcl : (chunk flat i size).length = size := chunk_length flat size i hm hi
    have hlen : query.length = (chunk flat i size).length := by rw [hq, hcl]
    have hne : query ≠ [] := by
      intro hnil
      rw [hnil] at hq
      simp at hq
      omega
    have hemp : ¬ (query.isEmpty = true) := by
      cases query with
      | nil => exact absurd rfl hne
      | cons x t => simp
    unfold cosine_similarity
    rw [if_neg (fun hc => hc hlen), if_neg hemp,
      batchScores_getD cfg hw query flat size i hi]

/-- Witness for C3's amended theorem at a well-formed two-vector collection. -/
theorem claim3_witness :
    cosine_similarity scalarConfig true [(1 : ℝ), 0] (chunk [(1 : ℝ), 0, 0, 1] 0 2)
      = .ok ((batchScores scalarConfig true [(1 : ℝ), 0] [(1 : ℝ), 0, 0, 1] 2).getD 0 0) :=
  ((claim3_batch_contract scalarConfig true [(1 : ℝ), 0] [(1 : ℝ), 0, 0, 1] 2
    (by omega)).2 rfl).2.2 rfl 0 (by norm_num)

/-- Counterexample for C8: the query `[1]` has length 1, not the dimension 2,
yet `batch_cosine_similarity` on the non-empty well-formed collection
`[1,0, 0,1]` succeeds (the internal kernel has no dimension check; `zip`
silently truncates), instead of failing with `DimensionMismatch`. -/
theorem claim8_counterexample :
    [(1 : ℝ)].length ≠ 2
    ∧ batch_cosine_similarity scalarConfig false [(1 : ℝ)] [(1 : ℝ), 0, 0, 1] 2
        = .ok [1, 0] := by
  refine ⟨by simp, ?_⟩
  have hb : batchScores scalarConfig false [(1 : ℝ)] [(1 : ℝ), 0, 0, 1] 2
      = [cosine_similarity_scalar [(1 : ℝ)] [(1 : ℝ), 0],
         cosine_similarity_scalar [(1 : ℝ)] [(0 : ℝ), 1]] := rfl
  rw [batch_ok scalarConfig false _ _ 2 (by omega) (by rfl), hb,
    scalar_short_query_ten, scalar_short_query_zero_one]

/-- C8, amended: `batch_cosine_similarity` performs no query-length check at
all.  With the scalar kernel selected (`use_simd = false`), every well-formed
collection is accepted regardless of the query's length: the call returns
`Ok` (never `DimensionMismatch`), and each score is the scalar kernel's
value over the `zip`-truncated pair.  (With the SIMD kernel a query longer
than the dimension makes the Rust code read out of bounds, which this model
does not cover.) -/
theorem claim8_no_kernel_dim_check (cfg : VectorConfig) (hw : Bool)
    (query flat : List ℝ) (size : ℕ) (hsimd : cfg.use_simd = false)
    (hs : 1 ≤ size) (hm : flat.length % size = 0) :
    batch_cosine_similarity cfg hw query flat size
      = .ok (batchScores cfg hw query flat size)
    ∧ batch_cosine_similarity cfg hw query flat size ≠ .err .dimensionMismatch
    ∧ ∀ i, i < flat.length / size →
        (batchScores cfg hw query flat size).getD i 0
          = cosine_similarity_scalar query (chunk flat i size) := by
  refine ⟨batch_ok cfg hw query flat size (by omega) hm, ?_, ?_⟩
  · rw [batch_ok cfg hw query flat size (by omega) hm]
    simp
  · intro i hi
    rw [batchScores_getD cfg hw query flat size i hi]
    simp [cosine_similarity_internal, hsimd]

/-- Witness for C8's amended theorem: mismatched query `[1]` against the
two-vector collection `[1,0, 0,1]` of dimension 2. -/
theorem claim8_witness :
    batch_cosine_similarity scalarConfig false [(1 : ℝ)] [(1 : ℝ), 0, 0, 1] 2
      = .ok (batchScores scalarConfig false [(1 : ℝ)] [(1 : ℝ), 0, 0, 1] 2)
    ∧ batch_cosine_similarity scalarConfig false [(1 : ℝ)] [(1 : ℝ), 0, 0, 1] 2
        ≠ .err .dimensionMismatch
    ∧ ∀ i, i < [(1 : ℝ), 0, 0, 1].length / 2 →
        (batchScores scalarConfig false [(1 : ℝ)] [(1 : ℝ), 0, 0, 1] 2).getD i 0
          = cosine_similarity_scalar [(1 : ℝ)] (chunk [(1 : ℝ), 0, 0, 1] i 2) :=
  claim8_no_kernel_dim_check scalarConfig false [(1 : ℝ)] [(1 : ℝ), 0, 0, 1] 2
    rfl (by omega) rfl

lemma drop_map_sum (v : List ℝ) (m : ℕ) (g : ℝ → ℝ) :
    ((v.drop m).map g).sum = ∑ i ∈ Finset.Ico m v.length, g (v.getD i 0) := by
  rw [list_map_sum_eq_range, List.length_drop, Finset.sum_Ico_eq_sum_range]
  refine Finset.sum_congr rfl fun i _ => ?_
  rw [List.getD_eq_getElem?_getD, List.getD_eq_getElem?_getD, List.getElem?_drop]

/-- The vectorized norm kernel `vector_norm_simd`: 8-wide lanes over
`len / 8` chunks, horizontal reduction, then a scalar pass over the slice
`vector[chunks*8 ..]`. -/
noncomputable def vector_norm_simd (vector : List ℝ) : ℝ :=
  let len := vector.length
  let chunks := len / 8
  let sum_squares := simdAccum (fun i => vector.getD i 0 * vector.getD i 0) chunks
  let partial_sum := sumAvxRegister sum_squares
  let remaining_sum := ((vector.drop (chunks * 8)).map fun x => x * x).sum
  Real.sqrt (partial_sum + remaining_sum)

/-- Norm dispatch `vector_norm_internal`: vectorized kernel when allowed and
supported, scalar `sqrt(sum of squares)` otherwise. -/
noncomputable def vector_norm_internal (cfg : VectorConfig) (hw_avx2 : Bool)
    (vector : List ℝ) : ℝ :=
  if cfg.use_simd && hw_avx2 then vector_norm_simd vector
  else Real.sqrt (sumSq vector)

lemma vector_norm_simd_eq (v : List ℝ) : vector_norm_simd v = l2norm v := by
  simp only [vector_norm_simd, l2norm]
  rw [drop_map_sum, sumAvxRegister_simdAccum]
  congr 1
  rw [sumSq_eq_range,
    show Finset.range (v.length / 8 * 8) = Finset.Ico 0 (v.length / 8 * 8) by
      rw [Finset.range_eq_Ico],
    show Finset.range v.length = Finset.Ico 0 v.length by rw [Finset.range_eq_Ico]]
  exact Finset.sum_Ico_consecutive _ (Nat.zero_le _) (Nat.div_mul_le_self v.length 8)

lemma vector_norm_internal_eq (cfg : VectorConfig) (hw : Bool) (v : List ℝ) :
    vector_norm_internal cfg hw v = l2norm v := by
  unfold vector_norm_internal
  split
  · exact vector_norm_simd_eq v
  · rfl

/-- The public `normalize_vector` method: rejects a zero-norm input with
`ZeroVectorError`, otherwise divides every (double-precision) component by
the internal norm. -/
noncomputable def normalize_vector (cfg : VectorConfig) (hw_avx2 : Bool)
    (vector : List ℝ) : Outcome (List ℝ) :=
  let norm := vector_norm_internal cfg hw_avx2 vector
  if norm = 0 then .err .zeroVector
  else .ok (vector.map fun x => x / norm)

lemma sumSq_nonneg (v : List ℝ) : 0 ≤ sumSq v := by
  refine List.sum_nonneg fun x hx => ?_
  obtain ⟨y, _, rfl⟩ := List.mem_map.mp hx
  exact mul_self_nonneg y

lemma sumSq_map_div (v : List ℝ) (s : ℝ) :
    sumSq (v.map fun x => x / s) = sumSq v / (s * s) := by
  rw [sumSq_eq_range, sumSq_eq_range, div_eq_mul_inv, Finset.sum_mul]
  have hlen : (v.map fun x => x / s).length = v.length := by simp
  rw [hlen]
  refine Finset.sum_congr rfl fun i _ => ?_
  have hget : (v.map fun x => x / s).getD i 0 = v.getD i 0 / s := by
    have h0 : (0 : ℝ) / s = 0 := by simp
    calc (v.map fun x => x / s).getD i 0
        = (v.map fun x => x / s).getD i ((0 : ℝ) / s) := by rw [h0]
      _ = v.getD i 0 / s := List.getD_map v 0 (fun x => x / s)
  rw [hget, div_mul_div_comm, div_eq_mul_inv]

lemma l2norm_map_div_self (v : List ℝ) (h : l2norm v ≠ 0) :
    l2norm (v.map fun x => x / l2norm v) = 1 := by
  have hsq : l2norm v * l2norm v = sumSq v :=
    Real.mul_self_sqrt (sumSq_nonneg v)
  have hs0 : sumSq v ≠ 0 := by
    intro hc
    exact h (by unfold l2norm; rw [hc]; exact Real.sqrt_zero)
  unfold l2norm
  rw [sumSq_map_div]
  unfold l2norm at hsq
  rw [hsq, div_self hs0, Real.sqrt_one]

/-- C6: `normalize_vector` fails with `ZeroVectorError` exactly when the
vector's L2 norm is zero, and otherwise returns the vector with every
component divided by that norm, whose L2 norm is then exactly 1; in
particular `normalize([3,4]) = [0.6, 0.8]`. -/
theorem claim6_normalize (cfg : VectorConfig) (hw : Bool) (v : List ℝ) :
    (normalize_vector cfg hw v = .err .zeroVector ↔ l2norm v = 0)
    ∧ (l2norm v ≠ 0 →
        normalize_vector cfg hw v = .ok (v.map fun x => x / l2norm v)
        ∧ l2norm (v.map fun x => x / l2norm v) = 1)
    ∧ normalize_vector cfg hw [3, 4] = .ok [0.6, 0.8] := by
  have hn : ∀ w : List ℝ, vector_norm_internal cfg hw w = l2norm w :=
    vector_norm_internal_eq cfg hw
  refine ⟨?_, ?_, ?_⟩
  · unfold normalize_vector
    rw [hn v]
    by_cases hz : l2norm v = 0
    · rw [if_pos hz]
      simp [hz]
    · rw [if_neg hz]
      simp [hz]
  · intro hz
    unfold normalize_vector
    rw [hn v, if_neg hz]
    exact ⟨rfl, l2norm_map_div_self v hz⟩
  · have h25 : sumSq [(3 : ℝ), 4] = 25 := by norm_num [sumSq]
    have h5 : l2norm [(3 : ℝ), 4] = 5 := by
      rw [l2norm, h25, show (25 : ℝ) = 5 ^ 2 by norm_num, Real.sqrt_sq (by norm_num)]
    unfold normalize_vector
    rw [hn, h5, if_neg (by norm_num)]
    norm_num

/-- Witness for C6: the non-degenerate branch evaluated at `[3,4]`. -/
theorem claim6_witness :
    normalize_vector defaultConfig true [(3 : ℝ), 4]
        = .ok ([(3 : ℝ), 4].map fun x => x / l2norm [(3 : ℝ), 4])
    ∧ l2norm ([(3 : ℝ), 4].map fun x => x / l2norm [(3 : ℝ), 4]) = 1 :=
  (claim6_normalize defaultConfig true [(3 : ℝ), 4]).2.1 (by
    have h25 : sumSq [(3 : ℝ), 4] = 25 := by norm_num [sumSq]
    rw [l2norm, h25, show (25 : ℝ) = 5 ^ 2 by norm_num, Real.sqrt_sq (by norm_num)]
    norm_num)

/-- The distance written for the pair `(i, j)`:
`1.0 - cosine_similarity_internal(vec_i, vec_j)`. -/
noncomputable def distEntry (cfg : VectorConfig) (hw : Bool) (flat : List ℝ)
    (size i j : ℕ) : ℝ :=
  1 - cosine_similarity_internal cfg hw (chunk flat i size) (chunk flat j size)

/-- Row `i` of the parallel strategy of `pairwise_distances`: the row starts
as `n` zeroes of the preallocated buffer, and the inner loop writes
`row[j] = 1 - cos(vec_i, vec_j)` for every `j != i`.  The mutable row slice
is modelled as a function with pointwise updates. -/
noncomputable def pairRowPar (cfg : VectorConfig) (hw : Bool) (flat : List ℝ)
    (size n i : ℕ) : ℕ → ℝ :=
  (List.range n).foldl
    (fun row j => if i ≠ j then Function.update row j (distEntry cfg hw flat size i j) else row)
    (fun _ => 0)

/-- The sequential strategy of `pairwise_distances`: the flat `n*n` buffer
starts as zeroes and the double loop writes `distances[i*n+j]` for every
`i != j`.  The mutable buffer is modelled as a function with pointwise
updates. -/
noncomputable def pairSeqBuf (cfg : VectorConfig) (hw : Bool) (flat : List ℝ)
    (size n : ℕ) : ℕ → ℝ :=
  (List.range n).foldl
    (fun d i => (List.range n).foldl
      (fun d j => if i ≠ j then Function.update d (i * n + j) (distEntry cfg hw flat size i j) else d)
      d)
    (fun _ => 0)

/-- The public `pairwise_distances` method.  With `vector_size = 0` the Rust
expressions `vectors_flat.len() / vector_size` and `% vector_size` divide by
zero and panic.  The parallel branch (`par_chunks_mut(n)`, taken when
`use_parallel` and `n > 50`) materialises the buffer row by row; the
sequential branch materialises it from the flat buffer. -/
noncomputable def pairwise_distances (cfg : VectorConfig) (hw : Bool)
    (vectors_flat : List ℝ) (vector_size : ℕ) : Outcome (List ℝ) :=
  if vector_size = 0 then .panic
  else if vectors_flat.length % vector_size ≠ 0 then .err .malformedCollection
  else
    let n := vectors_flat.length / vector_size
    if cfg.use_parallel = true ∧ 50 < n then
      .ok ((List.range n).flatMap fun i =>
        (List.range n).map (pairRowPar cfg hw vectors_flat vector_size n i))
    else
      .ok ((List.range (n * n)).map (pairSeqBuf cfg hw vectors_flat vector_size n))

lemma foldl_update_row (v : ℕ → ℝ) (i : ℕ) (js : List ℕ) (row : ℕ → ℝ) (q : ℕ) :
    ((js.foldl (fun r j => if i ≠ j then Function.update r j (v j) else r) row) q)
      = if q ∈ js ∧ i ≠ q then v q else row q := by
  induction js generalizing row with
  | nil => simp
  | cons j0 t ih =>
      simp only [List.foldl_cons]
      rw [ih]
      by_cases hmem : q ∈ t ∧ i ≠ q
      · rw [if_pos hmem, if_pos ⟨List.mem_cons_of_mem j0 hmem.1, hmem.2⟩]
      · rw [if_neg hmem]
        by_cases hij : i ≠ j0
        · rw [if_pos hij]
          by_cases hqj : q = j0
          · subst hqj
            rw [Function.update_same, if_pos ⟨List.mem_cons_self q t, hij⟩]
          · rw [Function.update_noteq hqj]
            rw [if_neg]
            rintro ⟨hin, hiq⟩
            rcases List.mem_cons.mp hin with h | h
            · exact hqj h
            · exact hmem ⟨h, hiq⟩
        · rw [if_neg hij]
          push_neg at hij
          rw [if_neg]
          rintro ⟨hin, hiq⟩
          rcases List.mem_cons.mp hin with h | h
          · exact hiq (by rw [hij, h])
          · exact hmem ⟨h, hiq⟩

lemma rowcol_inj (n i i' j j' : ℕ) (hj : j < n) (hj' : j' < n)
    (h : i * n + j = i' * n + j') : i = i' ∧ j = j' := by
  have hn : 0 < n := lt_of_le_of_lt (Nat.zero_le j) hj
  have h2 : n * i + j = n * i' + j' := by
    rw [Nat.mul_comm n i, Nat.mul_comm n i']
    exact h
  have e1 : (n * i + j) / n = i := by
    rw [Nat.mul_add_div hn, Nat.div_eq_of_lt hj]
    omega
  have e2 : (n * i' + j') / n = i' := by
    rw [Nat.mul_add_div hn, Nat.div_eq_of_lt hj']
    omega
  have hii : i = i' := by rw [← e1, ← e2, h2]
  subst hii
  exact ⟨rfl, by omega⟩

lemma foldl_update_seq_inner (v : ℕ → ℕ → ℝ) (n i : ℕ) (js : List ℕ)
    (hjs : ∀ j ∈ js, j < n) (d : ℕ → ℝ) (i' j' : ℕ) (hj' : j' < n) :
    ((js.foldl (fun d j => if i ≠ j then Function.update d (i * n + j) (v i j) else d) d)
        (i' * n + j'))
      = if i' = i ∧ j' ∈ js ∧ i ≠ j' then v i j' else d (i' * n + j') := by
  induction js generalizing d with
  | nil => simp
  | cons j0 t ih =>
      simp only [List.foldl_cons]
      rw [ih (fun j hj => hjs j (List.mem_cons_of_mem j0 hj))]
      by_cases hc : i' = i ∧ j' ∈ t ∧ i ≠ j'
      · rw [if_pos hc, if_pos ⟨hc.1, List.mem_cons_of_mem j0 hc.2.1, hc.2.2⟩]
      · rw [if_neg hc]
        by_cases hij : i ≠ j0
        · rw [if_pos hij]
          by_cases heq : i' * n + j' = i * n + j0
          · have hj0 : j0 < n := hjs j0 (List.mem_cons_self j0 t)
            obtain ⟨hi1, hj1⟩ := rowcol_inj n i' i j' j0 hj' hj0 heq
            subst hi1
            subst hj1
            rw [Function.update_same]
            rw [if_pos ⟨rfl, List.mem_cons_self j' t, hij⟩]
          · rw [Function.update_noteq heq]
            rw [if_neg]
            rintro ⟨h1, h2, h3⟩
            rcases List.mem_cons.mp h2 with h | h
            · exact heq (by rw [h1, h])
            · exact hc ⟨h1, h, h3⟩
        · rw [if_neg hij]
          push_neg at hij
          rw [if_neg]
          rintro ⟨h1, h2, h3⟩
          rcases List.mem_cons.mp h2 with h | h
          · exact h3 (by rw [hij, ← h])
          · exact hc ⟨h1, h, h3⟩

lemma foldl_update_seq_outer (v : ℕ → ℕ → ℝ) (n : ℕ) (is : List ℕ)
    (d : ℕ → ℝ) (i' j' : ℕ) (hj' : j' < n) :
    ((is.foldl (fun d i => (List.range n).foldl
        (fun d j => if i ≠ j then Function.update d (i * n + j) (v i j) else d) d) d)
        (i' * n + j'))
      = if i' ∈ is ∧ i' ≠ j' then v i' j' else d (i' * n + j') := by
  induction is generalizing d with
  | nil => simp
  | cons i0 t ih =>
      simp only [List.foldl_cons]
      rw [ih]
      by_cases hc : i' ∈ t ∧ i' ≠ j'
      · rw [if_pos hc, if_pos ⟨List.mem_cons_of_mem i0 hc.1, hc.2⟩]
      · rw [if_neg hc]
        rw [foldl_update_seq_inner v n i0 (List.range n)
          (fun j hj => List.mem_range.mp hj) d i' j' hj']
        by_cases h2 : i' = i0 ∧ j' ∈ List.range n ∧ i0 ≠ j'
        · obtain ⟨ha, hb, hcn⟩ := h2
          subst ha
          rw [if_pos ⟨rfl, hb, hcn⟩, if_pos ⟨List.mem_cons_self i' t, hcn⟩]
        · rw [if_neg h2, if_neg]
          rintro ⟨hmem, hne⟩
          rcases List.mem_cons.mp hmem with h | h
          · exact h2 ⟨h, List.mem_range.mpr hj', by rw [← h]; exact hne⟩
          · exact hc ⟨h, hne⟩

lemma range_map_getD (m : ℕ) (f : ℕ → ℝ) (p : ℕ) (hp : p < m) :
    ((List.range m).map f).getD p 0 = f p := by
  rw [List.getD_eq_getElem?_getD, List.getElem?_map, List.getElem?_range hp]
  rfl

lemma flatMap_rows_length (m n : ℕ) (row : ℕ → ℕ → ℝ) :
    ((List.range m).flatMap fun i => (List.range n).map (row i)).length = m * n := by
  induction m with
  | zero => simp
  | succ m ih =>
      rw [List.range_succ, List.flatMap_append, List.length_append, ih]
      simp [Nat.succ_mul]

lemma flatMap_rows_getD (m n : ℕ) (row : ℕ → ℕ → ℝ) (i j : ℕ) (hi : i < m) (hj : j < n) :
    ((List.range m).flatMap fun i => (List.range n).map (row i)).getD (i * n + j) 0
      = row i j := by
  induction m with
  | zero => omega
  | succ m ih =>
      rw [List.range_succ, List.flatMap_append]
      by_cases him : i < m
      · rw [List.getD_append _ _ _ _ (by
          rw [flatMap_rows_length]
          calc i * n + j < i * n + n := by omega
            _ = (i + 1) * n := by rw [Nat.add_mul, Nat.one_mul]
            _ ≤ m * n := Nat.mul_le_mul_right n (by omega))]
        exact ih him
      · have hieq : i = m := by omega
        subst hieq
        rw [List.getD_append_right _ _ _ _ (by rw [flatMap_rows_length]; omega)]
        rw [flatMap_rows_length]
        have : i * n + j - i * n = j := by omega
        rw [this]
        simp only [List.flatMap_cons, List.flatMap_nil, List.append_nil]
        exact range_map_getD n (row i) j hj

lemma distEntry_eq_scalar (cfg : VectorConfig) (hw : Bool) (flat : List ℝ)
    (size i j : ℕ) (hm : flat.length % size = 0)
    (hi : i < flat.length / size) (hj : j < flat.length / size) :
    distEntry cfg hw flat size i j
      = 1 - cosine_similarity_scalar (chunk flat i size) (chunk flat j size) := by
  unfold distEntry
  rw [internal_eq_scalar]
  rw [chunk_length flat size i hm hi, chunk_length flat size j hm hj]

/-- C5: for every well-formed collection (dimension at least 1, length a
multiple of the dimension), `pairwise_distances` returns an `n x n`
row-major matrix whose diagonal entries are exactly 0 (written by the
zero-initialised buffer, never by the kernel) and whose off-diagonal entry
`(i, j)` is `1 - cosine_similarity(vector_i, vector_j)` — for the parallel
strategy (more than 50 vectors) and the sequential strategy alike. -/
theorem claim5_pairwise_distances (cfg : VectorConfig) (hw : Bool) (flat : List ℝ)
    (size : ℕ) (hs : 1 ≤ size) (hm : flat.length % size = 0) :
    ∃ D, pairwise_distances cfg hw flat size = .ok D
      ∧ D.length = flat.length / size * (flat.length / size)
      ∧ ∀ i j, i < flat.length / size → j < flat.length / size →
          D.getD (i * (flat.length / size) + j) 0
            = if i = j then 0
              else 1 - cosine_similarity_scalar (chunk flat i size) (chunk flat j size) := by
  have hs0 : size ≠ 0 := by omega
  have hstep : pairwise_distances cfg hw flat size
      = if cfg.use_parallel = true ∧ 50 < flat.length / size then
          .ok ((List.range (flat.length / size)).flatMap fun i =>
            (List.range (flat.length / size)).map
              (pairRowPar cfg hw flat size (flat.length / size) i))
        else
          .ok ((List.range (flat.length / size * (flat.length / size))).map
            (pairSeqBuf cfg hw flat size (flat.length / size))) := by
    unfold pairwise_distances
    rw [if_neg hs0, if_neg (by simpa using hm)]
  rw [hstep]
  by_cases hpar : cfg.use_parallel = true ∧ 50 < flat.length / size
  · rw [if_pos hpar]
    refine ⟨_, rfl, flatMap_rows_length _ _ _, ?_⟩
    intro i j hi hj
    rw [flatMap_rows_getD _ _ _ i j hi hj]
    unfold pairRowPar
    rw [foldl_update_row]
    by_cases hij : i = j
    · subst hij
      rw [if_neg (by rintro ⟨_, hne⟩; exact hne rfl), if_pos rfl]
    · rw [if_pos ⟨List.mem_range.mpr hj, hij⟩, if_neg hij,
        distEntry_eq_scalar cfg hw flat size i j hm hi hj]
  · rw [if_neg hpar]
    refine ⟨_, rfl, by simp, ?_⟩
    intro i j hi hj
    have hlt : i * (flat.length / size) + j
        < flat.length / size * (flat.length / size) := by
      calc i * (flat.length / size) + j
          < i * (flat.length / size) + (flat.length / size) := by omega
        _ = (i + 1) * (flat.length / size) := by rw [Nat.add_mul, Nat.one_mul]
        _ ≤ flat.length / size * (flat.length / size) :=
            Nat.mul_le_mul_right _ (by omega)
    rw [range_map_getD _ _ _ hlt]
    unfold pairSeqBuf
    rw [foldl_update_seq_outer _ _ _ _ i j hj]
    by_cases hij : i = j
    · subst hij
      rw [if_neg (by rintro ⟨_, hne⟩; exact hne rfl), if_pos rfl]
    · rw [if_pos ⟨List.mem_range.mpr hi, hij⟩, if_neg hij,
        distEntry_eq_scalar cfg hw flat size i j hm hi hj]

/-- Witness for C5 at the two-vector collection `[1,0, 0,1]` of dimension 2
(sequential strategy, since 2 is not above the threshold 50). -/
theorem claim5_witness :
    ∃ D, pairwise_distances defaultConfig true [(1 : ℝ), 0, 0, 1] 2 = .ok D
      ∧ D.length = [(1 : ℝ), 0, 0, 1].length / 2 * ([(1 : ℝ), 0, 0, 1].length / 2)
      ∧ ∀ i j, i < [(1 : ℝ), 0, 0, 1].length / 2 → j < [(1 : ℝ), 0, 0, 1].length / 2 →
          D.getD (i * ([(1 : ℝ), 0, 0, 1].length / 2) + j) 0
            = if i = j then 0
              else 1 - cosine_similarity_scalar (chunk [(1 : ℝ), 0, 0, 1] i 2)
                  (chunk [(1 : ℝ), 0, 0, 1] j 2) :=
  claim5_pairwise_distances defaultConfig true [(1 : ℝ), 0, 0, 1] 2 (by omega) rfl

/-- The ordering used by `find_similar_vectors`:
`results.sort_by(|a, b| b.similarity.partial_cmp(&a.similarity))`, i.e.
descending similarity.  On the real-number model the comparator is total
(no NaN), so `partial_cmp(..).unwrap()` never panics. -/
def simOrder (a b : SimilarityResult) : Prop := b.similarity ≤ a.similarity

noncomputable instance : DecidableRel simOrder :=
  fun a b => inferInstanceAs (Decidable (b.similarity ≤ a.similarity))

instance : IsTotal SimilarityResult simOrder :=
  ⟨fun a b => le_total b.similarity a.similarity⟩

instance : IsTrans SimilarityResult simOrder :=
  ⟨fun _ _ _ h1 h2 => le_trans h2 h1⟩

/-- The filtered, indexed entries built by `find_similar_vectors` before
sorting: index `i` and label `paths[i]` for every batch score at least the
configured threshold. -/
noncomputable def qualifyingResults (cfg : VectorConfig) (hw : Bool)
    (query flat : List ℝ) (size : ℕ) (paths : List String) : List SimilarityResult :=
  (batchScores cfg hw query flat size).enum.filterMap fun p =>
    if cfg.similarity_threshold ≤ p.2 then
      some { index := p.1, path := paths.getD p.1 "", similarity := p.2 }
    else none

/-- The public `find_similar_vectors` method.  With `vector_size = 0` the
Rust expression `vectors_flat.len() / (vector_size as usize)` divides by
zero and panics.  Rust's `slice::sort_by` is a stable sort; with the
descending-similarity comparator its output is exactly
`List.insertionSort simOrder` (the unique stable descending sort). -/
noncomputable def find_similar_vectors (cfg : VectorConfig) (hw_avx2 : Bool)
    (query_vector vectors_flat : List ℝ) (vector_size : ℕ) (paths : List String)
    (top_k : ℕ) : Outcome (List SimilarityResult) :=
  if vector_size = 0 then .panic
  else if vectors_flat.length / vector_size ≠ paths.length then .err .labelCountMismatch
  else
    match batch_cosine_similarity cfg hw_avx2 query_vector vectors_flat vector_size with
    | .panic => .panic
    | .err e => .err e
    | .ok similarities =>
        let results := similarities.enum.filterMap fun p =>
          if cfg.similarity_threshold ≤ p.2 then
            some { index := p.1, path := paths.getD p.1 "", similarity := p.2 }
          else none
        .ok ((List.insertionSort simOrder results).take top_k)

lemma batch_err_of_mod (cfg : VectorConfig) (hw : Bool) (q flat : List ℝ) (size : ℕ)
    (hs : size ≠ 0) (hm : flat.length % size ≠ 0) :
    batch_cosine_similarity cfg hw q flat size = .err .malformedCollection := by
  unfold batch_cosine_similarity
  rw [if_neg hs, if_pos hm]

lemma find_similar_ok_cases (cfg : VectorConfig) (hw : Bool) (query flat : List ℝ)
    (size : ℕ) (paths : List String) (k : ℕ) (L : List SimilarityResult)
    (hs0 : size ≠ 0)
    (h : find_similar_vectors cfg hw query flat size paths k = .ok L) :
    flat.length % size = 0 ∧ flat.length / size = paths.length
    ∧ L = (List.insertionSort simOrder
        (qualifyingResults cfg hw query flat size paths)).take k := by
  unfold find_similar_vectors at h
  rw [if_neg hs0] at h
  by_cases hn : flat.length / size ≠ paths.length
  · rw [if_pos hn] at h
    exact absurd h (by simp)
  · push_neg at hn
    rw [if_neg (fun hc => hc hn)] at h
    by_cases hmod : flat.length % size = 0
    · rw [batch_ok cfg hw query flat size hs0 hmod] at h
      refine ⟨hmod, hn, ?_⟩
      have := (Outcome.ok.injEq _ _).mp h
      exact this.symm
    · rw [batch_err_of_mod cfg hw query flat size hs0 hmod] at h
      exact absurd h (by simp)

lemma getD_eq_getElem_of_lt (xs : List ℝ) (i : ℕ) (h : i < xs.length) :
    xs.getD i 0 = xs[i] := by
  rw [List.getD_eq_getElem?_getD, List.getElem?_eq_getElem h]
  rfl

lemma mem_qualifying (cfg : VectorConfig) (hw : Bool) (query flat : List ℝ)
    (size : ℕ) (paths : List String) (e : SimilarityResult)
    (he : e ∈ qualifyingResults cfg hw query flat size paths) :
    e.index < flat.length / size
    ∧ cfg.similarity_threshold ≤ e.similarity
    ∧ e.similarity = (batchScores cfg hw query flat size).getD e.index 0
    ∧ e.path = paths.getD e.index "" := by
  obtain ⟨p, hp, hsome⟩ := List.mem_filterMap.mp he
  by_cases hth : cfg.similarity_threshold ≤ p.2
  · rw [if_pos hth] at hsome
    obtain rfl := Option.some.inj hsome
    obtain ⟨hlt, hx⟩ := List.mem_enum (show (p.1, p.2) ∈ (batchScores cfg hw query flat size).enum from hp)
    rw [batchScores_length] at hlt
    refine ⟨hlt, hth, ?_, rfl⟩
    rw [getD_eq_getElem_of_lt _ _ (by rw [batchScores_length]; exact hlt), ← hx]
  · rw [if_neg hth] at hsome
    exact absurd hsome (by simp)

lemma enumFrom_fst_le {α : Type} (l : List α) (n : ℕ) :
    ∀ q ∈ l.enumFrom n, n ≤ q.1 := by
  induction l generalizing n with
  | nil => simp
  | cons x t ih =>
      intro q hq
      rw [List.enumFrom_cons] at hq
      rcases List.mem_cons.mp hq with h | h
      · rw [h]
      · exact le_trans (Nat.le_succ n) (ih (n + 1) q h)

lemma enumFrom_pairwise_fst {α : Type} (l : List α) (n : ℕ) :
    (l.enumFrom n).Pairwise (fun p q => p.1 < q.1) := by
  induction l generalizing n with
  | nil => simp
  | cons x t ih =>
      rw [List.enumFrom_cons]
      refine List.pairwise_cons.mpr ⟨?_, ih (n + 1)⟩
      intro q hq
      exact lt_of_lt_of_le (Nat.lt_succ_self n) (enumFrom_fst_le t (n + 1) q hq)

lemma qualifying_pairwise_index (cfg : VectorConfig) (hw : Bool) (query flat : List ℝ)
    (size : ℕ) (paths : List String) :
    (qualifyingResults cfg hw query flat size paths).Pairwise
      (fun a b => a.index < b.index) := by
  unfold qualifyingResults
  refine List.pairwise_filterMap.mpr ?_
  have base : ((batchScores cfg hw query flat size).enum).Pairwise
      (fun p q => p.1 < q.1) := by
    rw [List.enum_eq_enumFrom]
    exact enumFrom_pairwise_fst _ 0
  refine base.imp ?_
  intro p q hpq x hx y hy
  by_cases hcp : cfg.similarity_threshold ≤ p.2
  · rw [if_pos hcp] at hx
    by_cases hcq : cfg.similarity_threshold ≤ q.2
    · rw [if_pos hcq] at hy
      obtain rfl := Option.mem_some_iff.mp hx
      obtain rfl := Option.mem_some_iff.mp hy
      exact hpq
    · rw [if_neg hcq] at hy
      exact absurd hy (by simp)
  · rw [if_neg hcp] at hx
    exact absurd hx (by simp)

lemma orderedInsert_pairwise_tie (x : SimilarityResult) (l : List SimilarityResult)
    (hl : l.Pairwise (fun a b => a.similarity = b.similarity → a.index < b.index))
    (hx : ∀ y ∈ l, x.index < y.index) :
    (List.orderedInsert simOrder x l).Pairwise
      (fun a b => a.similarity = b.similarity → a.index < b.index) := by
  induction l with
  | nil => simp
  | cons b t ih =>
      rw [List.orderedInsert]
      by_cases hr : simOrder x b
      · rw [if_pos hr]
        exact List.pairwise_cons.mpr ⟨fun y hy _ => hx y hy, hl⟩
      · rw [if_neg hr]
        obtain ⟨hb, ht⟩ := List.pairwise_cons.mp hl
        refine List.pairwise_cons.mpr
          ⟨?_, ih ht (fun y hy => hx y (List.mem_cons_of_mem b hy))⟩
        intro y hy
        rcases (List.mem_orderedInsert simOrder).mp hy with h | h
        · subst h
          intro hsim
          exact absurd (le_of_eq hsim) hr
        · exact hb y h

lemma insertionSort_pairwise_tie (l : List SimilarityResult)
    (hl : l.Pairwise (fun a b => a.index < b.index)) :
    (List.insertionSort simOrder l).Pairwise
      (fun a b => a.similarity = b.similarity → a.index < b.index) := by
  induction l with
  | nil => simp
  | cons x t ih =>
      rw [List.insertionSort]
      obtain ⟨hx, ht⟩ := List.pairwise_cons.mp hl
      refine orderedInsert_pairwise_tie x _ (ih ht) ?_
      intro y hy
      exact hx y ((List.perm_insertionSort simOrder t).mem_iff.mp hy)

lemma filterMap_enumFrom_length (xs : List ℝ) (c : ℝ) (paths : List String) (n : ℕ) :
    ((xs.enumFrom n).filterMap fun p =>
        if c ≤ p.2 then
          some { index := p.1, path := paths.getD p.1 "",
                 similarity := p.2 : SimilarityResult }
        else none).length
      = xs.countP fun s => decide (c ≤ s) := by
  induction xs generalizing n with
  | nil => simp
  | cons x t ih =>
      have ih2 := ih (n + 1)
      simp only [List.getD_eq_getElem?_getD] at ih2
      by_cases hc : c ≤ x
      · simp [List.enumFrom_cons, List.filterMap_cons, List.countP_cons, hc, ih2]
      · simp [List.enumFrom_cons, List.filterMap_cons, List.countP_cons, hc, ih2]

lemma qualifying_length (cfg : VectorConfig) (hw : Bool) (query flat : List ℝ)
    (size : ℕ) (paths : List String) :
    (qualifyingResults cfg hw query flat size paths).length
      = (batchScores cfg hw query flat size).countP
          fun s => decide (cfg.similarity_threshold ≤ s) := by
  unfold qualifyingResults
  rw [List.enum_eq_enumFrom]
  exact filterMap_enumFrom_length _ _ paths 0

/-- C4: for dimension at least 1, `find_similar_vectors` fails with
`LabelCountMismatch` exactly when the label count differs from the vector
count; whenever it returns a result list, every entry's similarity is at
least `config.similarity_threshold`, the list is sorted descending by
similarity, its length is at most `min k qualifying_count`, and each
entry's `index`, `path` and `similarity` come from that entry's position
in the original collection. -/
theorem claim4_find_similar (cfg : VectorConfig) (hw : Bool) (query flat : List ℝ)
    (size : ℕ) (paths : List String) (k : ℕ) (hs : 1 ≤ size) :
    (find_similar_vectors cfg hw query flat size paths k = .err .labelCountMismatch
      ↔ flat.length / size ≠ paths.length)
    ∧ ∀ L, find_similar_vectors cfg hw query flat size paths k = .ok L →
        (∀ e ∈ L, cfg.similarity_threshold ≤ e.similarity)
        ∧ List.Sorted simOrder L
        ∧ L.length ≤ min k ((batchScores cfg hw query flat size).countP
            fun s => decide (cfg.similarity_threshold ≤ s))
        ∧ ∀ e ∈ L, e.index < flat.length / size
            ∧ e.similarity = (batchScores cfg hw query flat size).getD e.index 0
            ∧ e.path = paths.getD e.index "" := by
  have hs0 : size ≠ 0 := by omega
  constructor
  · constructor
    · intro h
      intro hn
      unfold find_similar_vectors at h
      rw [if_neg hs0, if_neg (fun hc => hc hn)] at h
      by_cases hmod : flat.length % size = 0
      · rw [batch_ok cfg hw query flat size hs0 hmod] at h
        exact absurd h (by simp)
      · rw [batch_err_of_mod cfg hw query flat size hs0 hmod] at h
        simp at h
    · intro hn
      unfold find_similar_vectors
      rw [if_neg hs0, if_pos hn]
  · intro L hL
    obtain ⟨hmod, hn, rfl⟩ := find_similar_ok_cases cfg hw query flat size paths k L hs0 hL
    have hmemq : ∀ e ∈ (List.insertionSort simOrder
        (qualifyingResults cfg hw query flat size paths)).take k,
        e ∈ qualifyingResults cfg hw query flat size paths := by
      intro e he
      exact (List.perm_insertionSort simOrder _).mem_iff.mp
        ((List.take_sublist _ _).subset he)
    refine ⟨?_, ?_, ?_, ?_⟩
    · intro e he
      exact (mem_qualifying cfg hw query flat size paths e (hmemq e he)).2.1
    · exact List.Pairwise.take (List.sorted_insertionSort simOrder _)
    · rw [List.length_take, List.length_insertionSort, qualifying_length]
    · intro e he
      obtain ⟨h1, _, h3, h4⟩ := mem_qualifying cfg hw query flat size paths e (hmemq e he)
      exact ⟨h1, h3, h4⟩

/-- Witness for C4 at a concrete two-vector collection with matching labels. -/
theorem claim4_witness :
    (find_similar_vectors defaultConfig true [(1 : ℝ), 0] [(1 : ℝ), 0, 0, 1] 2
        ["a", "b"] 5 = .err .labelCountMismatch
      ↔ [(1 : ℝ), 0, 0, 1].length / 2 ≠ (["a", "b"] : List String).length)
    ∧ ∀ L, find_similar_vectors defaultConfig true [(1 : ℝ), 0] [(1 : ℝ), 0, 0, 1] 2
        ["a", "b"] 5 = .ok L →
        (∀ e ∈ L, defaultConfig.similarity_threshold ≤ e.similarity)
        ∧ List.Sorted simOrder L
        ∧ L.length ≤ min 5 ((batchScores defaultConfig true [(1 : ℝ), 0]
            [(1 : ℝ), 0, 0, 1] 2).countP
            fun s => decide (defaultConfig.similarity_threshold ≤ s))
        ∧ ∀ e ∈ L, e.index < [(1 : ℝ), 0, 0, 1].length / 2
            ∧ e.similarity = (batchScores defaultConfig true [(1 : ℝ), 0]
                [(1 : ℝ), 0, 0, 1] 2).getD e.index 0
            ∧ e.path = (["a", "b"] : List String).getD e.index "" :=
  claim4_find_similar defaultConfig true [(1 : ℝ), 0] [(1 : ℝ), 0, 0, 1] 2
    ["a", "b"] 5 (by omega)

/-- C10: in `find_similar_vectors`, entries with exactly equal similarity
appear in ascending order of their original collection index: the filtered
list is built in index order and `slice::sort_by` is stable, so the
descending sort never swaps equal entries. -/
theorem claim10_stable_tie_break (cfg : VectorConfig) (hw : Bool)
    (query flat : List ℝ) (size : ℕ) (paths : List String) (k : ℕ)
    (hs : 1 ≤ size) :
    ∀ L, find_similar_vectors cfg hw query flat size paths k = .ok L →
      L.Pairwise fun a b => a.similarity = b.similarity → a.index < b.index := by
  have hs0 : size ≠ 0 := by omega
  intro L hL
  obtain ⟨hmod, hn, rfl⟩ := find_similar_ok_cases cfg hw query flat size paths k L hs0 hL
  exact List.Pairwise.take
    (insertionSort_pairwise_tie _ (qualifying_pairwise_index cfg hw query flat size paths))

lemma find_similar_ok (cfg : VectorConfig) (hw : Bool) (query flat : List ℝ)
    (size : ℕ) (paths : List String) (k : ℕ) (hs0 : size ≠ 0)
    (hm : flat.length % size = 0) (hn : flat.length / size = paths.length) :
    find_similar_vectors cfg hw query flat size paths k
      = .ok ((List.insertionSort simOrder
          (qualifyingResults cfg hw query flat size paths)).take k) := by
  unfold find_similar_vectors
  rw [if_neg hs0, if_neg (fun hc => hc hn), batch_ok cfg hw query flat size hs0 hm]
  rfl

lemma scalar_unit_self : cosine_similarity_scalar [(1 : ℝ), 0] [(1 : ℝ), 0] = 1 := by
  have ha : sumSq [(1 : ℝ), 0] = 1 := by norm_num [sumSq]
  have hd : sumProd [(1 : ℝ), 0] [(1 : ℝ), 0] = 1 := by norm_num [sumProd]
  simp only [cosine_similarity_scalar, ha, hd, Real.sqrt_one]
  norm_num

lemma scalar_unit_orth : cosine_similarity_scalar [(1 : ℝ), 0] [(0 : ℝ), 1] = 0 := by
  have ha : sumSq [(1 : ℝ), 0] = 1 := by norm_num [sumSq]
  have hb : sumSq [(0 : ℝ), 1] = 1 := by norm_num [sumSq]
  have hd : sumProd [(1 : ℝ), 0] [(0 : ℝ), 1] = 0 := by norm_num [sumProd]
  simp only [cosine_similarity_scalar, ha, hb, hd, Real.sqrt_one]
  norm_num

lemma batchScores_concrete :
    batchScores defaultConfig false [(1 : ℝ), 0] [(1 : ℝ), 0, 0, 1] 2 = [1, 0] := by
  have h : batchScores defaultConfig false [(1 : ℝ), 0] [(1 : ℝ), 0, 0, 1] 2
      = [cosine_similarity_scalar [(1 : ℝ), 0] [(1 : ℝ), 0],
         cosine_similarity_scalar [(1 : ℝ), 0] [(0 : ℝ), 1]] := rfl
  rw [h, scalar_unit_self, scalar_unit_orth]

lemma qualifying_concrete :
    qualifyingResults defaultConfig false [(1 : ℝ), 0] [(1 : ℝ), 0, 0, 1] 2 ["a", "b"]
      = [{ index := 0, path := "a", similarity := 1 }] := by
  unfold qualifyingResults
  rw [batchScores_concrete]
  have he : ([(1 : ℝ), 0]).enum = [((0 : ℕ), (1 : ℝ)), (1, 0)] := rfl
  rw [he]
  have h2 : defaultConfig.similarity_threshold ≤ (1 : ℝ) := by
    rw [show defaultConfig.similarity_threshold = (0.7 : ℝ) from rfl]
    norm_num
  have h3 : ¬ (defaultConfig.similarity_threshold ≤ (0 : ℝ)) := by
    rw [show defaultConfig.similarity_threshold = (0.7 : ℝ) from rfl]
    norm_num
  simp only [List.filterMap_cons, List.filterMap_nil]
  rw [if_pos h2, if_neg h3]
  rfl

lemma find_similar_concrete :
    find_similar_vectors defaultConfig false [(1 : ℝ), 0] [(1 : ℝ), 0, 0, 1] 2
        ["a", "b"] 5
      = .ok [{ index := 0, path := "a", similarity := 1 }] := by
  rw [find_similar_ok defaultConfig false [(1 : ℝ), 0] [(1 : ℝ), 0, 0, 1] 2
    ["a", "b"] 5 (by omega) rfl rfl, qualifying_concrete]
  rfl

/-- Witness for C10: the concrete output of `find_similar_vectors` on a
two-vector collection has its ties (trivially) in ascending index order. -/
theorem claim10_witness :
    List.Pairwise (fun a b => a.similarity = b.similarity → a.index < b.index)
      [({ index := 0, path := "a", similarity := 1 } : SimilarityResult)] :=
  claim10_stable_tie_break defaultConfig false [(1 : ℝ), 0] [(1 : ℝ), 0, 0, 1] 2
    ["a", "b"] 5 (by omega) [{ index := 0, path := "a", similarity := 1 }]
    find_similar_concrete

/-- C7 (code bug): with a stated dimension of 0 — malformed input the spec
requires to be answered with a structured error — `batch_cosine_similarity`,
`pairwise_distances` and `find_similar_vectors` all panic: the validation
expressions `len % vector_size` and `len / vector_size` themselves divide
by zero before any check can fire. -/
theorem claim7_dimension_zero_panics :
    batch_cosine_similarity defaultConfig true [] [] 0 = .panic
    ∧ pairwise_distances defaultConfig true [] 0 = .panic
    ∧ find_similar_vectors defaultConfig true [] [] 0 [] 0 = .panic :=
  ⟨rfl, rfl, rfl⟩

/-- Bitwise addition modulo 2^32, the word arithmetic of BLAKE3. -/
def add32 (a b : ℕ) : ℕ := (a + b) % 4294967296

/-- Right rotation of a 32-bit word: the two shifted parts occupy disjoint
bit ranges, so their sum is their bitwise or. -/
def rotr32 (x n : ℕ) : ℕ := x / 2 ^ n + x % 2 ^ n * 2 ^ (32 - n)

/-- Modelled from the spec: `create_cache_key` calls the external `blake3`
crate, whose algorithm is fixed by the public BLAKE3 specification; these
are its initialisation-vector words. -/
def blakeIV : List ℕ :=
  [0x6A09E667, 0xBB67AE85, 0x3C6EF372, 0xA54FF53A,
   0x510E527F, 0x9B05688C, 0x1F83D9AB, 0x5BE0CD19]

/-- The BLAKE3 message word schedule applied between rounds. -/
def msgSchedule : List ℕ := [2, 6, 3, 10, 7, 0, 4, 13, 1, 11, 12, 5, 9, 14, 15, 8]

/-- The BLAKE3 quarter-round `g` on the 16-word state. -/
def gMix (st : List ℕ) (a b c d mx my : ℕ) : List ℕ :=
  let sa := add32 (add32 (st.getD a 0) (st.getD b 0)) mx
  let sd := rotr32 ((st.getD d 0) ^^^ sa) 16
  let sc := add32 (st.getD c 0) sd
  let sb := rotr32 ((st.getD b 0) ^^^ sc) 12
  let sa2 := add32 (add32 sa sb) my
  let sd2 := rotr32 (sd ^^^ sa2) 8
  let sc2 := add32 sc sd2
  let sb2 := rotr32 (sb ^^^ sc2) 7
  (((st.set a sa2).set b sb2).set c sc2).set d sd2

/-- One BLAKE3 round: four column mixes then four diagonal mixes. -/
def roundMix (st m : List ℕ) : List ℕ :=
  let st := gMix st 0 4 8 12 (m.getD 0 0) (m.getD 1 0)
  let st := gMix st 1 5 9 13 (m.getD 2 0) (m.getD 3 0)
  let st := gMix st 2 6 10 14 (m.getD 4 0) (m.getD 5 0)
  let st := gMix st 3 7 11 15 (m.getD 6 0) (m.getD 7 0)
  let st := gMix st 0 5 10 15 (m.getD 8 0) (m.getD 9 0)
  let st := gMix st 1 6 11 12 (m.getD 10 0) (m.getD 11 0)
  let st := gMix st 2 7 8 13 (m.getD 12 0) (m.getD 13 0)
  let st := gMix st 3 4 9 14 (m.getD 14 0) (m.getD 15 0)
  st

/-- Apply the BLAKE3 message word schedule to a 16-word block. -/
def permuteMsg (m : List ℕ) : List ℕ := msgSchedule.map fun i => m.getD i 0

/-- The BLAKE3 compression function: seven rounds over the chaining value,
IV words, counter, block length and flags, followed by the output feed
of the two state halves.  Verified in this development against the
official test vectors for the empty input and `"abc"`. -/
def blakeCompress (cv block_words : List ℕ) (counter block_len flags : ℕ) : List ℕ :=
  let st := cv.take 8 ++ blakeIV.take 4
      ++ [counter % 4294967296, counter / 4294967296 % 4294967296, block_len, flags]
  let st := roundMix st block_words
  let m := permuteMsg block_words
  let st := roundMix st m
  let m := permuteMsg m
  let st := roundMix st m
  let m := permuteMsg m
  let st := roundMix st m
  let m := permuteMsg m
  let st := roundMix st m
  let m := permuteMsg m
  let st := roundMix st m
  let m := permuteMsg m
  let st := roundMix st m
  ((List.range 8).map fun i => (st.getD i 0) ^^^ (st.getD (i + 8) 0))
    ++ ((List.range 8).map fun i => (st.getD (i + 8) 0) ^^^ (cv.getD i 0))

/-- Little-endian packing of a 64-byte block into sixteen 32-bit words,
zero-padded. -/
def bytesToWords (bytes : List ℕ) : List ℕ :=
  (List.range 16).map fun w =>
    bytes.getD (4 * w) 0 + 256 * bytes.getD (4 * w + 1) 0
      + 65536 * bytes.getD (4 * w + 2) 0 + 16777216 * bytes.getD (4 * w + 3) 0

/-- Modelled from the spec: single-chunk BLAKE3 (inputs of at most 1024
bytes, i.e. vectors of at most 128 components — the chunk tree of longer
inputs is not modelled).  Non-final 64-byte blocks update the chaining
value with flag CHUNK_START (1) on the first; the final block carries
CHUNK_START (if also first), CHUNK_END (2) and ROOT (8), and the first
eight output words form the 256-bit digest. -/
def blake3Hash (data : List ℕ) : List ℕ :=
  let nblocks := max 1 ((data.length + 63) / 64)
  let cv := (List.range (nblocks - 1)).foldl
    (fun cv i =>
      (blakeCompress cv (bytesToWords ((data.drop (64 * i)).take 64)) 0 64
        (if i = 0 then 1 else 0)).take 8)
    blakeIV
  let last := nblocks - 1
  let block_len := data.length - 64 * last
  let flags := (if last = 0 then 1 else 0) + 2 + 8
  (blakeCompress cv (bytesToWords ((data.drop (64 * last)).take 64)) 0 block_len flags).take 8

/-- Little-endian bytes of a 32-bit word. -/
def wordLeBytes (w : ℕ) : List ℕ := [w % 256, w / 256 % 256, w / 65536 % 256, w / 16777216 % 256]

/-- Lowercase hexadecimal digit. -/
def hexChar (n : ℕ) : Char := if n < 10 then Char.ofNat (48 + n) else Char.ofNat (87 + n)

/-- Two lowercase hexadecimal digits of a byte, as in `to_hex`. -/
def byteHex (b : ℕ) : List Char := [hexChar (b / 16), hexChar (b % 16)]

/-- Hexadecimal rendering of a digest given as 32-bit words. -/
def hexString (words : List ℕ) : String := String.mk ((words.flatMap wordLeBytes).flatMap byteHex)

/-- The eight little-endian bytes of an `f64`, `f.to_le_bytes()`, acting on
the 64-bit pattern of the component. -/
def f64LeBytes (bits : ℕ) : List ℕ := (List.range 8).map fun i => bits / 256 ^ i % 256

/-- The `create_cache_key` method at the byte level: a vector is given by
the 64-bit patterns of its double-precision components; their little-endian
bytes are concatenated and hashed with BLAKE3, and the digest rendered in
hexadecimal.  Note the code hashes the `f64` bytes directly — no `f64 ->
f32` conversion is applied. -/
def create_cache_key (vector_bits : List ℕ) : String :=
  hexString (blake3Hash (vector_bits.flatMap f64LeBytes))

/-- Round `M / 2^shift` to the nearest integer, ties to even. -/
def roundSig (M : ℕ) (shift : ℕ) : ℕ :=
  let q := M / 2 ^ shift
  let r := M % 2 ^ shift
  let half := 2 ^ (shift - 1)
  if shift = 0 then M
  else if half < r ∨ (r = half ∧ q % 2 = 1) then q + 1 else q

/-- Modelled from the spec: the IEEE-754 double-to-single conversion (the
Rust `as f32` cast) on bit patterns, rounding to nearest with ties to
even; overflow saturates to the infinities, NaN maps to the canonical
quiet NaN, subnormal targets are handled by the wider rounding shift. -/
def f64_to_f32_bits (b : ℕ) : ℕ :=
  let sign := b / 2 ^ 63 % 2
  let e := b / 2 ^ 52 % 2048
  let m := b % 2 ^ 52
  if e = 2047 then
    if m = 0 then sign * 2 ^ 31 + 2139095040
    else sign * 2 ^ 31 + 2143289344
  else
    let M := if e = 0 then m else 2 ^ 52 + m
    let eAdj := if e = 0 then 1 else e
    if 897 ≤ eAdj then
      let sig := roundSig M 29
      let mag := (eAdj - 897) * 2 ^ 23 + sig
      if 2139095040 ≤ mag then sign * 2 ^ 31 + 2139095040 else sign * 2 ^ 31 + mag
    else
      sign * 2 ^ 31 + roundSig M (926 - eAdj)

set_option maxRecDepth 10000 in
/-- Counterexample for C9: the bit patterns of `1.0` and `1.0 + 2^-30`
convert to the same `f32` (both round to `1.0f32`), yet their cache keys
differ, because `create_cache_key` hashes the double-precision bytes with
no conversion. -/
theorem claim9_counterexample :
    f64_to_f32_bits 4607182418800017408 = f64_to_f32_bits 4607182418804211712
    ∧ create_cache_key [4607182418800017408] ≠ create_cache_key [4607182418804211712] :=
  ⟨by decide, by decide⟩

lemma length_flatMap_const {α β : Type} (l : List α) (f : α → List β) (k : ℕ)
    (h : ∀ x, (f x).length = k) : (l.flatMap f).length = l.length * k := by
  induction l with
  | nil => simp
  | cons x t ih =>
      rw [List.flatMap_cons, List.length_append, h, ih, List.length_cons, Nat.succ_mul]
      omega

lemma blakeCompress_length (cv bw : List ℕ) (c bl f : ℕ) :
    (blakeCompress cv bw c bl f).length = 16 := by
  simp [blakeCompress]

lemma blake3Hash_length (data : List ℕ) : (blake3Hash data).length = 8 := by
  simp [blake3Hash, blakeCompress_length]

lemma create_cache_key_length (v : List ℕ) : (create_cache_key v).length = 64 := by
  unfold create_cache_key hexString
  calc (String.mk (((blake3Hash (v.flatMap f64LeBytes)).flatMap wordLeBytes).flatMap byteHex)).length
      = (((blake3Hash (v.flatMap f64LeBytes)).flatMap wordLeBytes).flatMap byteHex).length := rfl
    _ = ((blake3Hash (v.flatMap f64LeBytes)).flatMap wordLeBytes).length * 2 :=
        length_flatMap_const _ byteHex 2 (fun b => rfl)
    _ = (blake3Hash (v.flatMap f64LeBytes)).length * 4 * 2 := by
        rw [length_flatMap_const _ wordLeBytes 4 (fun w => rfl)]
    _ = 64 := by rw [blake3Hash_length]

/-- C9, amended: `create_cache_key` is a deterministic pure function of the
vector's double-precision byte content — two vectors with the same
little-endian `f64` byte serialisation always yield the same fixed-length
(64 hexadecimal characters) key.  The double-to-single conversion plays no
role: vectors that agree only after that conversion can yield different
keys (see the counterexample). -/
theorem claim9_cache_key_pure (v w : List ℕ)
    (h : v.flatMap f64LeBytes = w.flatMap f64LeBytes) :
    create_cache_key v = create_cache_key w
    ∧ (create_cache_key v).length = 64 :=
  ⟨by unfold create_cache_key; rw [h], create_cache_key_length v⟩

/-- Witness for C9's amended theorem at the bit pattern of `1.0`. -/
theorem claim9_witness :
    create_cache_key [4607182418800017408] = create_cache_key [4607182418800017408]
    ∧ (create_cache_key [4607182418800017408]).length = 64 :=
  claim9_cache_key_pure [4607182418800017408] [4607182418800017408] rfl
